import Mathlib

/-!
Verification of the temporal ranking reconstruction and playback engine of the
Streamr operators dashboard (the `RaceLogic` module and its helpers).

Modelling conventions.
JavaScript numbers are modelled as exact rationals where fractional arithmetic
occurs (the nice-scale axis algorithm) and as natural numbers where the code
only ever holds non-negative integers (wei amounts parsed from decimal digit
strings, epoch-second dates).  The stable `Array.prototype.sort` is modelled by
`List.mergeSort`, which is a stable merge sort, applied to the comparator used
by the code.  DOM access, formatting of dates for display and the loading-bar
updates are presentation-only side effects and are not part of the model; the
playback model instead records the sequence of rendered frame indices in a
`rendered` log, and the single pending `setTimeout` handle is modelled by a
`timerPending` flag.
-/

/-- One row of the remote `operatorDailyBuckets` query: an observation of one
operator on one day.  `date` is an epoch-second day stamp, the two metric
fields are decimal strings as returned by the subgraph. -/
structure Bucket where
  date : Nat
  operatorId : String
  valueWithoutEarnings : String
  cumulativeEarningsWei : String
deriving DecidableEq, Repr

/-- Cached display metadata of one operator (`operatorMetaMap` values). -/
structure OperatorMeta where
  name : String
  color : String
deriving DecidableEq, Repr

/-- Running per-operator forward-fill cell: the `lastKnownValues[id]` record. -/
structure StakeEarn where
  stake : String
  earnings : String
deriving DecidableEq, Repr

/-- One entry of a ranking list inside a frame. -/
structure RankedEntry where
  id : String
  valueWei : String
  floatValue : Nat
  name : String
  color : String
deriving DecidableEq, Repr

/-- One frame of the reconstructed timeline.  The source also stores a
locale-formatted `formattedDate` string; that is a pure display rendering of
`date` and is omitted from the model. -/
structure Frame where
  date : Nat
  stake : List RankedEntry
  earnings : List RankedEntry
deriving DecidableEq, Repr

/-- The fixed display cap `DISPLAY_COUNT = 50` from the configuration block. -/
def DISPLAY_COUNT : Nat := 50

/-- Models the JavaScript `parseFloat` on the non-negative decimal integer
strings that the subgraph returns for wei amounts, reading the numeric value
exactly (the double rounding of huge wei values is not modelled; no claim
below depends on the numeric value of a parsed string). -/
def parseFloat (s : String) : Nat :=
  s.toList.foldl (fun acc c => if c.isDigit then acc * 10 + (c.toNat - 48) else acc) 0

/-! ## Nice-scale axis algorithm -/

/-- Exact integer value of `Math.floor(Math.log10 r)` for a rational `r`,
meaningful for `0 < r`. -/
def floorLog10 (r : ℚ) : ℤ :=
  if 1 ≤ r then (Nat.log 10 (⌊r⌋).toNat : ℤ) else -(Nat.clog 10 (⌈r⁻¹⌉).toNat : ℤ)

/-- The `roughStep` local of `calculateNiceStep`: the maximum divided by the
fixed number of marker slots. -/
def roughStepOf (maxValData : ℚ) : ℚ := maxValData / 16

/-- The `magnitude` local of `calculateNiceStep`. -/
def magnitudeOf (maxValData : ℚ) : ℚ := (10 : ℚ) ^ floorLog10 (roughStepOf maxValData)

/-- The `normalizedStep` local of `calculateNiceStep`. -/
def normalizedStepOf (maxValData : ℚ) : ℚ := roughStepOf maxValData / magnitudeOf maxValData

/-- The nice-scale step function `calculateNiceStep` of the source. -/
def calculateNiceStep (maxValData : ℚ) : ℚ :=
  if maxValData = 0 then 1000
  else
    let normalizedStep := normalizedStepOf maxValData
    let niceStep : ℚ :=
      if normalizedStep < 3/2 then 1
      else if normalizedStep < 3 then 2
      else if normalizedStep < 7 then 5
      else 10
    niceStep * magnitudeOf maxValData

theorem floorLog10_le (r : ℚ) (hr : 0 < r) : (10 : ℚ) ^ floorLog10 r ≤ r := by
  unfold floorLog10
  split
  · rename_i h1
    have hfl : (1 : ℤ) ≤ ⌊r⌋ := by exact_mod_cast Int.le_floor.mpr (by exact_mod_cast h1)
    have hm0 : (⌊r⌋).toNat ≠ 0 := by omega
    have hlog := Nat.pow_log_le_self 10 hm0
    have hcast : ((10 ^ Nat.log 10 (⌊r⌋).toNat : ℕ) : ℚ) ≤ (((⌊r⌋).toNat : ℕ) : ℚ) := by
      exact_mod_cast hlog
    have htn : (((⌊r⌋).toNat : ℕ) : ℚ) = ((⌊r⌋ : ℤ) : ℚ) := by
      have : ((⌊r⌋).toNat : ℤ) = ⌊r⌋ := Int.toNat_of_nonneg (by omega)
      exact_mod_cast congrArg (fun z : ℤ => (z : ℚ)) this
    rw [zpow_natCast]
    calc (10 : ℚ) ^ Nat.log 10 (⌊r⌋).toNat
        = ((10 ^ Nat.log 10 (⌊r⌋).toNat : ℕ) : ℚ) := by push_cast; ring
      _ ≤ ((⌊r⌋ : ℤ) : ℚ) := by rw [← htn]; exact hcast
      _ ≤ r := Int.floor_le r
  · rename_i h1
    have hrlt : r < 1 := lt_of_not_ge h1
    have hinv : 1 < r⁻¹ := (one_lt_inv_iff₀).mpr ⟨hr, hrlt⟩
    have hceil : (1 : ℤ) < ⌈r⁻¹⌉ := Int.lt_ceil.mpr (by exact_mod_cast hinv)
    set m : ℕ := (⌈r⁻¹⌉).toNat with hm
    have hm2 : 2 ≤ m := by omega
    have hle : (m : ℕ) ≤ 10 ^ Nat.clog 10 m := Nat.le_pow_clog (by norm_num) m
    have hinvle : r⁻¹ ≤ (m : ℚ) := by
      have h1 : r⁻¹ ≤ ((⌈r⁻¹⌉ : ℤ) : ℚ) := Int.le_ceil r⁻¹
      have h2 : ((⌈r⁻¹⌉ : ℤ) : ℚ) = (m : ℚ) := by
        have : (m : ℤ) = ⌈r⁻¹⌉ := Int.toNat_of_nonneg (by omega)
        exact_mod_cast (congrArg (fun z : ℤ => (z : ℚ)) this).symm
      rw [h2] at h1; exact h1
    have hpow : r⁻¹ ≤ (10 : ℚ) ^ (Nat.clog 10 m : ℤ) := by
      rw [zpow_natCast]
      calc r⁻¹ ≤ (m : ℚ) := hinvle
        _ ≤ ((10 ^ Nat.clog 10 m : ℕ) : ℚ) := by exact_mod_cast hle
        _ = (10 : ℚ) ^ Nat.clog 10 m := by push_cast; ring
    have h10 : (0 : ℚ) < (10 : ℚ) ^ (Nat.clog 10 m : ℤ) := by positivity
    rw [zpow_neg]
    rw [inv_le_comm₀ hr h10] at hpow
    exact hpow

theorem floorLog10_lt (r : ℚ) (hr : 0 < r) : r < (10 : ℚ) ^ (floorLog10 r + 1) := by
  unfold floorLog10
  split
  · rename_i h1
    have hfl : (0 : ℤ) ≤ ⌊r⌋ := by
      have : (1 : ℤ) ≤ ⌊r⌋ := by exact_mod_cast Int.le_floor.mpr (by exact_mod_cast h1)
      omega
    set m : ℕ := (⌊r⌋).toNat with hm
    have hlt : m < 10 ^ (Nat.log 10 m + 1) := Nat.lt_pow_succ_log_self (by norm_num) m
    have hr1 : r < ((⌊r⌋ : ℤ) : ℚ) + 1 := Int.lt_floor_add_one r
    have hmq : ((⌊r⌋ : ℤ) : ℚ) = (m : ℚ) := by
      have : (m : ℤ) = ⌊r⌋ := Int.toNat_of_nonneg hfl
      exact_mod_cast (congrArg (fun z : ℤ => (z : ℚ)) this).symm
    have hm1 : (m : ℚ) + 1 ≤ (10 : ℚ) ^ (Nat.log 10 m + 1) := by
      have : (m + 1 : ℕ) ≤ 10 ^ (Nat.log 10 m + 1) := hlt
      calc (m : ℚ) + 1 = ((m + 1 : ℕ) : ℚ) := by push_cast; ring
        _ ≤ ((10 ^ (Nat.log 10 m + 1) : ℕ) : ℚ) := by exact_mod_cast this
        _ = (10 : ℚ) ^ (Nat.log 10 m + 1) := by push_cast; ring
    have hz : (10 : ℚ) ^ ((Nat.log 10 m : ℤ) + 1) = (10 : ℚ) ^ (Nat.log 10 m + 1) := by
      have : ((Nat.log 10 m : ℤ) + 1) = ((Nat.log 10 m + 1 : ℕ) : ℤ) := by push_cast; ring
      rw [this, zpow_natCast]
    rw [hz]
    calc r < ((⌊r⌋ : ℤ) : ℚ) + 1 := hr1
      _ = (m : ℚ) + 1 := by rw [hmq]
      _ ≤ (10 : ℚ) ^ (Nat.log 10 m + 1) := hm1
  · rename_i h1
    have hrlt : r < 1 := lt_of_not_ge h1
    have hinv : 1 < r⁻¹ := (one_lt_inv_iff₀).mpr ⟨hr, hrlt⟩
    have hceil : (1 : ℤ) < ⌈r⁻¹⌉ := Int.lt_ceil.mpr (by exact_mod_cast hinv)
    set m : ℕ := (⌈r⁻¹⌉).toNat with hm
    have hm2 : 2 ≤ m := by omega
    set k : ℕ := Nat.clog 10 m with hk
    have hk1 : 1 ≤ k := Nat.clog_pos (by norm_num) (by omega)
    have hpred : 10 ^ (k - 1) < m := Nat.pow_pred_clog_lt_self (by norm_num) (by omega)
    have hceilq : ((⌈r⁻¹⌉ : ℤ) : ℚ) = (m : ℚ) := by
      have : (m : ℤ) = ⌈r⁻¹⌉ := Int.toNat_of_nonneg (by omega)
      exact_mod_cast (congrArg (fun z : ℤ => (z : ℚ)) this).symm
    have hlt : (m : ℚ) - 1 < r⁻¹ := by
      have h2 := Int.ceil_lt_add_one r⁻¹
      rw [hceilq] at h2
      linarith
    have hstep : ((10 : ℚ) ^ (k - 1 : ℕ)) < r⁻¹ := by
      have hle : (10 : ℚ) ^ (k - 1 : ℕ) ≤ (m : ℚ) - 1 := by
        have : (10 ^ (k - 1) + 1 : ℕ) ≤ m := hpred
        have hc : ((10 ^ (k - 1) + 1 : ℕ) : ℚ) ≤ (m : ℚ) := by exact_mod_cast this
        push_cast at hc
        linarith
      linarith
    have hzeq : -((k : ℤ)) + 1 = -(((k - 1 : ℕ) : ℤ)) := by omega
    rw [hzeq, zpow_neg]
    have h10 : (0 : ℚ) < (10 : ℚ) ^ (((k - 1 : ℕ) : ℤ)) := by positivity
    rw [lt_inv_comm₀ hr h10]
    rw [zpow_natCast] at *
    exact hstep

theorem normalizedStep_mem_Ico (x : ℚ) (hx : 0 < x) :
    1 ≤ normalizedStepOf x ∧ normalizedStepOf x < 10 := by
  have hrough : 0 < roughStepOf x := by
    unfold roughStepOf; positivity
  have hmag : 0 < magnitudeOf x := by
    unfold magnitudeOf; positivity
  have hle := floorLog10_le (roughStepOf x) hrough
  have hlt := floorLog10_lt (roughStepOf x) hrough
  constructor
  · unfold normalizedStepOf
    rw [le_div_iff₀ hmag, one_mul]
    exact hle
  · unfold normalizedStepOf
    rw [div_lt_iff₀ hmag]
    have h2 : (10 : ℚ) ^ (floorLog10 (roughStepOf x) + 1) = 10 * magnitudeOf x := by
      unfold magnitudeOf
      rw [zpow_add_one₀ (by norm_num)]
      ring
    rw [← h2]
    exact hlt

theorem floorLog10_thirtyseven_sixteenth : floorLog10 ((37 : ℚ) / 16) = 0 := by
  have hfloor : ⌊(37 : ℚ) / 16⌋ = 2 := by
    rw [Int.floor_eq_iff]
    constructor <;> norm_num
  unfold floorLog10
  rw [if_pos (by norm_num : (1 : ℚ) ≤ 37 / 16)]
  rw [hfloor]
  have : Nat.log 10 (2 : ℤ).toNat = 0 := by
    have h2 : (2 : ℤ).toNat = 2 := rfl
    rw [h2]
    exact Nat.log_eq_zero_iff.mpr (Or.inl (by norm_num))
  rw [this]
  norm_num

theorem calculateNiceStep_thirtyseven : calculateNiceStep 37 = 2 := by
  have hfl : floorLog10 (roughStepOf 37) = 0 := by
    unfold roughStepOf
    exact floorLog10_thirtyseven_sixteenth
  have hmag : magnitudeOf 37 = 1 := by
    unfold magnitudeOf
    rw [hfl]
    norm_num
  have hnorm : normalizedStepOf 37 = 37 / 16 := by
    unfold normalizedStepOf roughStepOf
    rw [hmag]
    norm_num
  unfold calculateNiceStep
  rw [if_neg (by norm_num : ¬(37 : ℚ) = 0)]
  simp only [hnorm, hmag]
  rw [if_neg (by norm_num : ¬(37 : ℚ) / 16 < 3 / 2)]
  rw [if_pos (by norm_num : (37 : ℚ) / 16 < 3)]
  norm_num

/-- C4: the nice-scale axis algorithm divides the maximum by 16, takes the
power-of-ten magnitude of that rough step, normalizes it into the interval
from 1 inclusive to 10 exclusive, snaps with thresholds below 1.5 to 1, below
3 to 2, below 7 to 5 and otherwise to 10, and returns the snapped factor times
the magnitude; in particular for maximum value 37 it returns step 2. -/
theorem claim_C4_nice_step (x : ℚ) (hx : 0 < x) :
    (1 ≤ normalizedStepOf x ∧ normalizedStepOf x < 10) ∧
    calculateNiceStep x =
      (if normalizedStepOf x < 3 / 2 then 1
       else if normalizedStepOf x < 3 then 2
       else if normalizedStepOf x < 7 then 5
       else 10) * (10 : ℚ) ^ floorLog10 (x / 16) ∧
    calculateNiceStep 37 = 2 := by
  refine ⟨normalizedStep_mem_Ico x hx, ?_, calculateNiceStep_thirtyseven⟩
  unfold calculateNiceStep
  rw [if_neg (ne_of_gt hx)]
  unfold magnitudeOf roughStepOf
  rfl

/-- Witness for C4, instantiated at the concrete maximum value 37. -/
theorem claim_C4_nice_step_witness :
    ((1 ≤ normalizedStepOf 37 ∧ normalizedStepOf 37 < 10) ∧
      calculateNiceStep 37 =
        (if normalizedStepOf 37 < 3 / 2 then 1
         else if normalizedStepOf 37 < 3 then 2
         else if normalizedStepOf 37 < 7 then 5
         else 10) * (10 : ℚ) ^ floorLog10 ((37 : ℚ) / 16) ∧
      calculateNiceStep 37 = 2) :=
  claim_C4_nice_step 37 (by decide)

/-- C9: with a maximum value of exactly 0 the nice-scale step function returns
the fixed fallback step 1000, and for every non-negative maximum it returns a
positive step. -/
theorem claim_C9_nice_step_zero :
    calculateNiceStep 0 = 1000 ∧ ∀ x : ℚ, 0 ≤ x → 0 < calculateNiceStep x := by
  constructor
  · simp [calculateNiceStep]
  · intro x hx
    rcases eq_or_lt_of_le hx with h | h
    · rw [← h]
      simp [calculateNiceStep]
    · unfold calculateNiceStep
      rw [if_neg (ne_of_gt h)]
      have hmag : 0 < magnitudeOf x := by
        unfold magnitudeOf
        positivity
      simp only []
      exact mul_pos (by split_ifs <;> norm_num) hmag

/-- Witness for C9 at the concrete maximum value 0. -/
theorem claim_C9_nice_step_zero_witness :
    calculateNiceStep 0 = 1000 ∧ 0 < calculateNiceStep 0 :=
  ⟨claim_C9_nice_step_zero.1, claim_C9_nice_step_zero.2 0 le_rfl⟩

/-! ## Playback scheduler -/

/-- The two ranking metrics selectable in the UI. -/
inductive Metric where
  | stake
  | earnings
deriving DecidableEq, Repr

/-- Playback-relevant fields of `RaceLogic.state`.  `timelineLen` is the
length of `timelineData`; `timerPending` records whether the `setTimeout`
handle scheduled by `loop` is still pending; `rendered` logs the frame index
of every `renderFrame` call that actually rendered a frame. -/
structure RaceState where
  timelineLen : Nat
  currentIndex : Int
  isPlaying : Bool
  playbackSpeed : Nat
  activeMetric : Metric
  timerPending : Bool
  rendered : List Nat
deriving DecidableEq, Repr

/-- The guard and effect of `renderFrame(index)`: the frame lookup
`this.state.timelineData[index]` yields a frame exactly when the index is an
integer in range, otherwise the function returns without rendering. -/
def renderFrame (index : Int) (s : RaceState) : RaceState :=
  if 0 ≤ index ∧ index < (s.timelineLen : Int) then
    { s with rendered := s.rendered ++ [index.toNat] }
  else s

/-- One invocation of `RaceLogic.loop`.  The recursive
`setTimeout(() => this.loop(), speed)` is modelled by setting `timerPending`;
the body renders the current frame, then either stops at the last frame or
advances and reschedules. -/
def loop (s : RaceState) : RaceState :=
  if s.isPlaying = false then s
  else
    let s1 := renderFrame s.currentIndex s
    if (s1.timelineLen : Int) - 1 ≤ s1.currentIndex then
      { s1 with isPlaying := false }
    else
      { s1 with currentIndex := s1.currentIndex + 1, timerPending := true }

/-- A pending scheduled tick fires: the timeout is consumed and the `loop`
body runs. -/
def fireTimer (s : RaceState) : RaceState :=
  loop { s with timerPending := false }

/-- `RaceLogic.togglePlay`: flips the playing flag; when starting, resets the
index to 0 if at or past the last frame and runs `loop` synchronously; when
stopping, cancels the pending timeout. -/
def togglePlay (s : RaceState) : RaceState :=
  let s1 := { s with isPlaying := !s.isPlaying }
  if s1.isPlaying = true then
    let s2 :=
      if (s1.timelineLen : Int) - 1 ≤ s1.currentIndex then
        { s1 with currentIndex := 0 }
      else s1
    loop s2
  else
    { s1 with timerPending := false }

/-- The slider `input` event handler inside `RaceLogic.init`: sets
`isPlaying` to false, stores the scrubbed index and renders it.  It does not
touch the scheduled timeout. -/
def sliderInput (value : Int) (s : RaceState) : RaceState :=
  let s1 := { s with isPlaying := false, currentIndex := value }
  renderFrame s1.currentIndex s1

/-- `RaceLogic.toggleSpeed`: swaps the playback speed between 100 and 30
milliseconds; the remaining statements only toggle CSS classes. -/
def toggleSpeed (s : RaceState) : RaceState :=
  { s with playbackSpeed := if s.playbackSpeed = 100 then 30 else 100 }

/-- A concrete playback state used by witnesses and counterexamples. -/
def sampleState : RaceState :=
  { timelineLen := 3, currentIndex := 0, isPlaying := false, playbackSpeed := 100,
    activeMetric := Metric.stake, timerPending := false, rendered := [] }

/-- C5: starting playback with the index at or past the last frame resets the
index to 0 before playing (the first rendered frame is frame 0), and a tick
firing at the last frame renders that frame and stops without advancing the
index and without rescheduling. -/
theorem claim_C5_end_of_timeline :
    (∀ s : RaceState, 1 ≤ s.timelineLen → s.isPlaying = false →
        (s.timelineLen : Int) - 1 ≤ s.currentIndex →
        (togglePlay s).rendered = s.rendered ++ [0] ∧
        ((togglePlay s).isPlaying = true ↔ 1 < s.timelineLen)) ∧
    (∀ s : RaceState, s.isPlaying = true → 1 ≤ s.timelineLen →
        s.currentIndex = (s.timelineLen : Int) - 1 →
        fireTimer s = { s with isPlaying := false, timerPending := false,
                               rendered := s.rendered ++ [s.currentIndex.toNat] }) := by
  constructor
  · intro s hlen hplay hidx
    unfold togglePlay loop renderFrame
    simp only [hplay, Bool.not_false, if_pos rfl, if_pos hidx]
    have hin : (0 : Int) ≤ 0 ∧ (0 : Int) < ((s.timelineLen : Int)) := by
      constructor
      · exact le_refl 0
      · exact_mod_cast hlen
    simp only [if_pos hin, Int.toNat_zero]
    by_cases h2 : (s.timelineLen : Int) - 1 ≤ 0
    · have hone : s.timelineLen = 1 := by omega
      simp [h2, hone]
    · have hone : 1 < s.timelineLen := by omega
      simp [h2, hone]
  · intro s hplay hlen hidx
    unfold fireTimer loop renderFrame
    simp only [hplay]
    have hin : (0 : Int) ≤ s.currentIndex ∧ s.currentIndex < ((s.timelineLen : Int)) := by
      omega
    simp only [if_neg (by simp : ¬(true = false)), if_pos hin]
    have hstop : ((s.timelineLen : Int) - 1 ≤ s.currentIndex) := le_of_eq hidx.symm
    simp only [if_pos hstop]

/-- Witness for C5: a stopped 3-frame timeline positioned at the last frame
restarts from frame 0, and a playing 3-frame timeline ticking at the last
frame renders it and stops. -/
theorem claim_C5_end_of_timeline_witness :
    ((togglePlay { sampleState with currentIndex := 2 }).rendered =
        { sampleState with currentIndex := 2 }.rendered ++ [0] ∧
      ((togglePlay { sampleState with currentIndex := 2 }).isPlaying = true ↔
        1 < { sampleState with currentIndex := 2 }.timelineLen)) ∧
    fireTimer { sampleState with currentIndex := 2, isPlaying := true, timerPending := true } =
      { { sampleState with currentIndex := 2, isPlaying := true, timerPending := true } with
          isPlaying := false, timerPending := false,
          rendered := { sampleState with currentIndex := 2 }.rendered ++ [(2 : Int).toNat] } :=
  ⟨claim_C5_end_of_timeline.1 { sampleState with currentIndex := 2 }
      (by decide) rfl (by decide),
    claim_C5_end_of_timeline.2
      { sampleState with currentIndex := 2, isPlaying := true, timerPending := true }
      rfl (by decide) (by decide)⟩

/-- C6 counterexample: in a playing state with a pending scheduled tick, the
slider seek handler does not cancel the pending timeout, contradicting the
claim that a seek synchronously cancels the pending scheduled tick. -/
theorem claim_C6_counterexample :
    ¬ ((sliderInput 1 { sampleState with isPlaying := true, timerPending := true }).timerPending
        = false) := by
  decide

/-- C6 as amended: the seek handler does not cancel the scheduled timeout; it
only clears the playing flag, stores the index and renders it, and a stale
tick that fires after the seek, before any further play command, consumes the
timeout without rendering or otherwise changing the state. -/
theorem claim_C6_amended (value : Int) (s : RaceState) :
    (sliderInput value s).isPlaying = false ∧
    (sliderInput value s).timerPending = s.timerPending ∧
    fireTimer (sliderInput value s) = { sliderInput value s with timerPending := false } := by
  have hp : (sliderInput value s).isPlaying = false := by
    simp only [sliderInput, renderFrame]
    split <;> rfl
  refine ⟨hp, ?_, ?_⟩
  · simp only [sliderInput, renderFrame]
    split <;> rfl
  · simp only [fireTimer, loop]
    simp [hp]

/-- C7 counterexample: with a single-frame timeline, rendering out-of-range
index 5 does not render the clamped frame 0; the call is silently ignored,
contradicting the claim that out-of-range indices are clamped and rendered. -/
theorem claim_C7_counterexample :
    ¬ ((renderFrame 5 { sampleState with timelineLen := 1 }).rendered = [0]) := by
  decide

/-- C7 as amended: playback rendering never fails, but out-of-range indices
are silently ignored rather than clamped: an in-range index appends exactly
that frame to the render log, and an out-of-range index leaves the state
unchanged (no render, no error). -/
theorem claim_C7_amended (index : Int) (s : RaceState) :
    (0 ≤ index ∧ index < (s.timelineLen : Int) →
      renderFrame index s = { s with rendered := s.rendered ++ [index.toNat] }) ∧
    (¬ (0 ≤ index ∧ index < (s.timelineLen : Int)) → renderFrame index s = s) := by
  constructor
  · intro h
    unfold renderFrame
    rw [if_pos h]
  · intro h
    unfold renderFrame
    rw [if_neg h]

/-- Witness for C7: both branches exercised on the sample state. -/
theorem claim_C7_amended_witness :
    renderFrame 0 sampleState =
        { sampleState with rendered := sampleState.rendered ++ [(0 : Int).toNat] } ∧
    renderFrame 5 sampleState = sampleState :=
  ⟨(claim_C7_amended 0 sampleState).1 (by decide),
    (claim_C7_amended 5 sampleState).2 (by decide)⟩

/-- C10: the speed toggle maps 100 to 30 and 30 to 100, keeps the speed within
the two-value set, is an involution on states whose speed is one of the two
values, and changes no other playback state. -/
theorem claim_C10_speed_toggle (s : RaceState)
    (h : s.playbackSpeed = 100 ∨ s.playbackSpeed = 30) :
    ((toggleSpeed s).playbackSpeed = 100 ∨ (toggleSpeed s).playbackSpeed = 30) ∧
    (s.playbackSpeed = 100 → (toggleSpeed s).playbackSpeed = 30) ∧
    (s.playbackSpeed = 30 → (toggleSpeed s).playbackSpeed = 100) ∧
    toggleSpeed (toggleSpeed s) = s ∧
    (toggleSpeed s).currentIndex = s.currentIndex ∧
    (toggleSpeed s).isPlaying = s.isPlaying ∧
    (toggleSpeed s).activeMetric = s.activeMetric := by
  obtain ⟨tl, ci, ip, ps, am, tp, rd⟩ := s
  rcases h with h | h <;> subst h <;>
    refine ⟨?_, ?_, ?_, ?_, rfl, rfl, rfl⟩ <;>
    simp [toggleSpeed]

/-- Witness for C10 at the sample state, whose speed is 100. -/
theorem claim_C10_speed_toggle_witness :
    ((toggleSpeed sampleState).playbackSpeed = 100 ∨
        (toggleSpeed sampleState).playbackSpeed = 30) ∧
    (sampleState.playbackSpeed = 100 → (toggleSpeed sampleState).playbackSpeed = 30) ∧
    (sampleState.playbackSpeed = 30 → (toggleSpeed sampleState).playbackSpeed = 100) ∧
    toggleSpeed (toggleSpeed sampleState) = sampleState ∧
    (toggleSpeed sampleState).currentIndex = sampleState.currentIndex ∧
    (toggleSpeed sampleState).isPlaying = sampleState.isPlaying ∧
    (toggleSpeed sampleState).activeMetric = sampleState.activeMetric :=
  claim_C10_speed_toggle sampleState (Or.inl rfl)

/-! ## Timeline reconstruction

The JavaScript `processTimeline` groups buckets by date into plain objects,
then iterates the sorted distinct dates, merging each day into a running
`lastKnownValues` table and emitting one frame per date.  Objects keyed by
operator id are denoted as functions `String → _`; the per-date object whose
keys are overwritten bucket by bucket is denoted by `survivingBucket`, the
last bucket of the input list for a given date and operator, which is exactly
the value left in `bucketsByDate[d][opId]` after the grouping pass.  The order
in which `Object.keys` enumerates the distinct operators of one day does not
matter because the updates of one day touch distinct table cells.  The
JavaScript table holds entries only for the discovered `operatorIds` (and
would throw on a bucket of an undiscovered operator, which the history query
cannot return by construction); the model totalises the table over all ids,
and the claims about it carry the corresponding hypothesis that every bucket
belongs to a discovered operator. -/

/-- Distinct elements in first-occurrence order: the model of filling a
JavaScript `Set` by iterating the bucket list. -/
def dedupKeepFirst : List Nat → List Nat
  | [] => []
  | d :: rest => d :: dedupKeepFirst (rest.filter (fun x => decide (x ≠ d)))
termination_by l => l.length
decreasing_by
  simp only [List.length_cons]
  exact Nat.lt_succ_of_le (List.length_filter_le _ _)

/-- The `sortedDates` local of `processTimeline`: distinct bucket dates sorted
ascending by the numeric comparator. -/
def sortedDates (buckets : List Bucket) : List Nat :=
  (dedupKeepFirst (buckets.map (fun b => b.date))).mergeSort (fun a b => decide (a ≤ b))

/-- The seed value of every `lastKnownValues` cell. -/
def initialValues : StakeEarn := { stake := "0", earnings := "0" }

/-- The bucket stored in `bucketsByDate[d][id]` after the grouping pass: the
last bucket of the input list with that date and operator. -/
def survivingBucket (buckets : List Bucket) (d : Nat) (id : String) : Option Bucket :=
  (buckets.filter (fun b => decide (b.date = d) && decide (b.operatorId = id))).getLast?

/-- JavaScript string truthiness: every string other than the empty string is
truthy. -/
def truthy (s : String) : Bool := decide (s ≠ "")

/-- Merging one day of observations into the running table: the body of the
`Object.keys(daysData).forEach` loop, which per reporting operator overwrites
each metric only when the reported value is truthy. -/
def mergeDay (buckets : List Bucket) (d : Nat) (table : String → StakeEarn) :
    String → StakeEarn :=
  fun id =>
    match survivingBucket buckets d id with
    | none => table id
    | some b =>
      { stake :=
          if truthy b.valueWithoutEarnings then b.valueWithoutEarnings else (table id).stake,
        earnings :=
          if truthy b.cumulativeEarningsWei then b.cumulativeEarningsWei else (table id).earnings }

/-- The running `lastKnownValues` table after processing the given dates in
order, starting from the seeded table. -/
def tableAt (buckets : List Bucket) (dates : List Nat) : String → StakeEarn :=
  dates.foldl (fun table d => mergeDay buckets d table) (fun _ => initialValues)

/-- The fixed deprecation `blacklist` of `processTimeline`. -/
def blacklist : List String := ["old", "testnet", "deprecated"]

/-- Substring search on character lists, used to denote
`String.prototype.includes`. -/
def includesAux (pat : List Char) : List Char → Bool
  | [] => pat.isEmpty
  | c :: tl => pat.isPrefixOf (c :: tl) || includesAux pat tl

/-- The JavaScript `s.includes(pat)` substring test. -/
def strIncludes (s pat : String) : Bool := includesAux pat.toList s.toList

/-- The `validOperatorIds` local of `processTimeline`: discovered operators
with resolved metadata, minus blacklisted names when the filter is active. -/
def validOperatorIds (metaMap : String → Option OperatorMeta) (filterDeprecated : Bool)
    (operatorIds : List String) : List String :=
  operatorIds.filter (fun id =>
    match metaMap id with
    | none => false
    | some meta =>
      if filterDeprecated then
        ! (blacklist.any (fun word => strIncludes meta.name.toLower word))
      else true)

/-- Metadata lookup for an id that passed the `validOperatorIds` filter; the
default is never read for such ids. -/
def metaOf (metaMap : String → Option OperatorMeta) (id : String) : OperatorMeta :=
  (metaMap id).getD { name := "", color := "" }

/-- Building one ranking entry for one operator from the running table: the
object literal inside the `.map` of `processTimeline`. -/
def entryFor (metaMap : String → Option OperatorMeta) (table : String → StakeEarn)
    (proj : StakeEarn → String) (id : String) : RankedEntry :=
  { id := id, valueWei := proj (table id), floatValue := parseFloat (proj (table id)),
    name := (metaOf metaMap id).name, color := (metaOf metaMap id).color }

/-- The sort comparator `(a, b) => b.floatValue - a.floatValue` as the
before-or-tied relation of the stable sort: `a` may stay before `b` exactly
when the comparator is not positive. -/
def byFloatDesc (a b : RankedEntry) : Bool := decide (b.floatValue ≤ a.floatValue)

/-- One ranking list: map the valid operators over the running table, sort
descending by parsed value with the stable sort, truncate to the display
cap. -/
def rankEntries (metaMap : String → Option OperatorMeta) (filterDeprecated : Bool)
    (operatorIds : List String) (table : String → StakeEarn)
    (proj : StakeEarn → String) : List RankedEntry :=
  (((validOperatorIds metaMap filterDeprecated operatorIds).map
      (entryFor metaMap table proj)).mergeSort byFloatDesc).take DISPLAY_COUNT

/-- One emitted frame of `processTimeline`. -/
def mkFrame (metaMap : String → Option OperatorMeta) (filterDeprecated : Bool)
    (operatorIds : List String) (table : String → StakeEarn) (d : Nat) : Frame :=
  { date := d,
    stake := rankEntries metaMap filterDeprecated operatorIds table StakeEarn.stake,
    earnings := rankEntries metaMap filterDeprecated operatorIds table StakeEarn.earnings }

/-- The `sortedDates.map` body of `processTimeline`: the running table is
threaded through the dates in order and one frame is emitted per date. -/
def buildFrames (metaMap : String → Option OperatorMeta) (filterDeprecated : Bool)
    (operatorIds : List String) (buckets : List Bucket) :
    (String → StakeEarn) → List Nat → List Frame
  | _, [] => []
  | table, d :: rest =>
    let table1 := mergeDay buckets d table
    mkFrame metaMap filterDeprecated operatorIds table1 d ::
      buildFrames metaMap filterDeprecated operatorIds buckets table1 rest

/-- `RaceLogic.processTimeline`: groups, sorts the distinct dates, fails on an
empty timeline, otherwise forward-fills and emits the frame sequence. -/
def processTimeline (metaMap : String → Option OperatorMeta) (filterDeprecated : Bool)
    (buckets : List Bucket) (operatorIds : List String) : Except String (List Frame) :=
  let ds := sortedDates buckets
  if ds.length = 0 then Except.error "No data found"
  else Except.ok (buildFrames metaMap filterDeprecated operatorIds buckets
    (fun _ => initialValues) ds)

/-- The candidate entry list of frame `i` for one metric, in the original
candidate order, before sorting and truncation. -/
def metricProj : Metric → StakeEarn → String
  | Metric.stake => StakeEarn.stake
  | Metric.earnings => StakeEarn.earnings

/-- Selects the ranking list of a frame for one metric. -/
def metricRanking (f : Frame) : Metric → List RankedEntry
  | Metric.stake => f.stake
  | Metric.earnings => f.earnings

/-- The unsorted candidate entries of frame `i` for one metric. -/
def candidatesAt (metaMap : String → Option OperatorMeta) (filterDeprecated : Bool)
    (buckets : List Bucket) (operatorIds : List String) (m : Metric) (i : Nat) :
    List RankedEntry :=
  (validOperatorIds metaMap filterDeprecated operatorIds).map
    (entryFor metaMap (tableAt buckets ((sortedDates buckets).take (i + 1))) (metricProj m))

/-- Modelled from the claim wording of C1: the observations of one entity at
or before a date. -/
def observationsUpTo (buckets : List Bucket) (id : String) (d : Nat) : List Bucket :=
  buckets.filter (fun b => decide (b.operatorId = id) && decide (b.date ≤ d))

/-- One step of the most-recent-observation scan: keep the candidate with the
later date, the later list position winning date ties. -/
def mostRecentStep (acc : Option Bucket) (b : Bucket) : Option Bucket :=
  match acc with
  | none => some b
  | some a => if a.date ≤ b.date then some b else some a

/-- Modelled from the claim wording of C1: the most recent observation of an
entity at or before a date, the later list position winning date ties exactly
as the last-write-wins grouping of the code does. -/
def mostRecentObservation (buckets : List Bucket) (id : String) (d : Nat) : Option Bucket :=
  (observationsUpTo buckets id d).foldl mostRecentStep none

/-- Modelled from the claim wording of C1: the forward-filled value pair of an
entity at a date, the seeded zero pair when no observation exists yet. -/
def forwardFillSpec (buckets : List Bucket) (id : String) (d : Nat) : StakeEarn :=
  match mostRecentObservation buckets id d with
  | some b => { stake := b.valueWithoutEarnings, earnings := b.cumulativeEarningsWei }
  | none => initialValues

theorem mem_dedupKeepFirst (x : Nat) (l : List Nat) : x ∈ dedupKeepFirst l ↔ x ∈ l := by
  induction l using dedupKeepFirst.induct with
  | case1 => rw [dedupKeepFirst]
  | case2 d rest ih =>
    rw [dedupKeepFirst]
    simp only [List.mem_cons, ih, List.mem_filter, decide_eq_true_eq]
    constructor
    · rintro (h | ⟨h1, h2⟩)
      · exact Or.inl h
      · exact Or.inr h1
    · rintro (h | h1)
      · exact Or.inl h
      · by_cases hx : x = d
        · exact Or.inl hx
        · exact Or.inr ⟨h1, hx⟩

theorem nodup_dedupKeepFirst (l : List Nat) : (dedupKeepFirst l).Nodup := by
  induction l using dedupKeepFirst.induct with
  | case1 => rw [dedupKeepFirst]; exact List.nodup_nil
  | case2 d rest ih =>
    rw [dedupKeepFirst]
    refine List.Nodup.cons ?_ ih
    intro hmem
    have := (mem_dedupKeepFirst d _).mp hmem
    simp [List.mem_filter] at this

theorem sortedDates_pairwise_lt (buckets : List Bucket) :
    (sortedDates buckets).Pairwise (· < ·) := by
  have hsorted := @List.sorted_mergeSort Nat (fun a b : Nat => decide (a ≤ b))
    (by intro a b c h1 h2; simp only [decide_eq_true_eq] at *; omega)
    (by intro a b; simp only [Bool.or_eq_true, decide_eq_true_eq]; omega)
    (dedupKeepFirst (buckets.map (fun b => b.date)))
  have hnodup : (sortedDates buckets).Nodup := by
    unfold sortedDates
    exact (List.mergeSort_perm _ _).nodup_iff.mpr (nodup_dedupKeepFirst _)
  have hple : (sortedDates buckets).Pairwise (fun a b : Nat => a ≤ b) := by
    unfold sortedDates
    exact hsorted.imp (fun h => by simpa using h)
  exact (hple.and hnodup).imp (fun h => lt_of_le_of_ne h.1 h.2)

theorem mem_sortedDates (buckets : List Bucket) (x : Nat) :
    x ∈ sortedDates buckets ↔ ∃ b ∈ buckets, b.date = x := by
  unfold sortedDates
  rw [List.mem_mergeSort, mem_dedupKeepFirst]
  simp [List.mem_map]

theorem buildFrames_length (metaMap : String → Option OperatorMeta) (filt : Bool)
    (ops : List String) (bs : List Bucket) :
    ∀ (ds : List Nat) (table : String → StakeEarn),
      (buildFrames metaMap filt ops bs table ds).length = ds.length := by
  intro ds
  induction ds with
  | nil => intro table; rfl
  | cons d rest ih =>
    intro table
    simp only [buildFrames, List.length_cons, ih]

theorem buildFrames_get (metaMap : String → Option OperatorMeta) (filt : Bool)
    (ops : List String) (bs : List Bucket) :
    ∀ (ds : List Nat) (table : String → StakeEarn) (i : Nat) (hi : i < ds.length)
      (hi2 : i < (buildFrames metaMap filt ops bs table ds).length),
      (buildFrames metaMap filt ops bs table ds).get ⟨i, hi2⟩ =
        mkFrame metaMap filt ops
          (List.foldl (fun t d => mergeDay bs d t) table (ds.take (i + 1)))
          (ds.get ⟨i, hi⟩) := by
  intro ds
  induction ds with
  | nil => intro table i hi hi2; exact absurd hi (by simp)
  | cons d rest ih =>
    intro table i hi hi2
    cases i with
    | zero => rfl
    | succ j =>
      have hi3 : j < rest.length := by simpa using hi
      have hi4 : j < (buildFrames metaMap filt ops bs (mergeDay bs d table) rest).length := by
        rw [buildFrames_length]; exact hi3
      exact ih (mergeDay bs d table) j hi3 hi4

theorem buildFrames_map_date (metaMap : String → Option OperatorMeta) (filt : Bool)
    (ops : List String) (bs : List Bucket) :
    ∀ (ds : List Nat) (table : String → StakeEarn),
      (buildFrames metaMap filt ops bs table ds).map Frame.date = ds := by
  intro ds
  induction ds with
  | nil => intro table; rfl
  | cons d rest ih =>
    intro table
    simp only [buildFrames, List.map_cons, ih, mkFrame]

theorem processTimeline_ok (metaMap : String → Option OperatorMeta) (filt : Bool)
    (buckets : List Bucket) (operatorIds : List String) (frames : List Frame)
    (hok : processTimeline metaMap filt buckets operatorIds = Except.ok frames) :
    frames = buildFrames metaMap filt operatorIds buckets (fun _ => initialValues)
      (sortedDates buckets) := by
  simp only [processTimeline] at hok
  by_cases h : (sortedDates buckets).length = 0
  · rw [if_pos h] at hok
    exact absurd hok (by simp)
  · rw [if_neg h] at hok
    exact (Except.ok.inj hok).symm

/-- C3: for any raw observation sequence, in any order and with repeated
dates, the emitted frame dates are strictly increasing with no duplicates. -/
theorem claim_C3_frame_dates_strict_mono
    (metaMap : String → Option OperatorMeta) (filterDeprecated : Bool)
    (buckets : List Bucket) (operatorIds : List String) (frames : List Frame)
    (hok : processTimeline metaMap filterDeprecated buckets operatorIds = Except.ok frames) :
    (frames.map Frame.date).Pairwise (· < ·) ∧ (frames.map Frame.date).Nodup := by
  have hf := processTimeline_ok metaMap filterDeprecated buckets operatorIds frames hok
  subst hf
  rw [buildFrames_map_date]
  exact ⟨sortedDates_pairwise_lt buckets, (sortedDates_pairwise_lt buckets).imp ne_of_lt⟩

/-- A concrete metadata map used by witnesses: resolves only operator id a. -/
def metaMapV : String → Option OperatorMeta :=
  fun id => if id = "a" then some { name := "Alpha", color := "bg-red-600" } else none

/-- A concrete single-observation bucket list used by witnesses. -/
def bucketsV : List Bucket :=
  [{ date := 100, operatorId := "a", valueWithoutEarnings := "5",
     cumulativeEarningsWei := "7" }]

/-- The single stake ranking entry produced from `bucketsV`. -/
def entryVStake : RankedEntry :=
  { id := "a", valueWei := "5", floatValue := 5, name := "Alpha", color := "bg-red-600" }

/-- The single earnings ranking entry produced from `bucketsV`. -/
def entryVEarn : RankedEntry :=
  { id := "a", valueWei := "7", floatValue := 7, name := "Alpha", color := "bg-red-600" }

/-- The single frame produced from `bucketsV`. -/
def frameV : Frame := { date := 100, stake := [entryVStake], earnings := [entryVEarn] }

theorem processTimelineV :
    processTimeline metaMapV false bucketsV ["a"] = Except.ok [frameV] := by
  simp [processTimeline, sortedDates, dedupKeepFirst, buildFrames, mkFrame, rankEntries,
    validOperatorIds, entryFor, metaOf, tableAt, mergeDay, survivingBucket, initialValues,
    parseFloat, truthy, metaMapV, bucketsV, frameV, entryVStake, entryVEarn, DISPLAY_COUNT]

/-- Witness for C3 on the concrete single-observation input. -/
theorem claim_C3_frame_dates_strict_mono_witness :
    (([frameV].map Frame.date).Pairwise (· < ·)) ∧ ([frameV].map Frame.date).Nodup :=
  claim_C3_frame_dates_strict_mono metaMapV false bucketsV ["a"] [frameV] processTimelineV

theorem byFloatDesc_trans :
    ∀ (a b c : RankedEntry), byFloatDesc a b → byFloatDesc b c → byFloatDesc a c := by
  intro a b c h1 h2
  simp only [byFloatDesc, decide_eq_true_eq] at *
  omega

theorem byFloatDesc_total : ∀ (a b : RankedEntry), byFloatDesc a b || byFloatDesc b a := by
  intro a b
  simp only [byFloatDesc, Bool.or_eq_true, decide_eq_true_eq]
  omega

/-- C2: each ranking list of each frame equals the stable descending sort of
that frame candidate entry list truncated to the display cap, hence holds at
most 50 entries and is sorted descending by `floatValue`, and any tied pair
keeps the relative order it has in the candidate entry list. -/
theorem claim_C2_rankings_sorted_topK
    (metaMap : String → Option OperatorMeta) (filterDeprecated : Bool)
    (buckets : List Bucket) (operatorIds : List String) (frames : List Frame)
    (hok : processTimeline metaMap filterDeprecated buckets operatorIds = Except.ok frames)
    (m : Metric) (i : Nat) (hi : i < frames.length)
    (a b : RankedEntry)
    (hab : [a, b].Sublist (candidatesAt metaMap filterDeprecated buckets operatorIds m i))
    (htie : a.floatValue = b.floatValue) :
    metricRanking (frames.get ⟨i, hi⟩) m =
      ((candidatesAt metaMap filterDeprecated buckets operatorIds m i).mergeSort
        byFloatDesc).take DISPLAY_COUNT ∧
    (metricRanking (frames.get ⟨i, hi⟩) m).length ≤ DISPLAY_COUNT ∧
    (metricRanking (frames.get ⟨i, hi⟩) m).Pairwise
      (fun x y => y.floatValue ≤ x.floatValue) ∧
    [a, b].Sublist ((candidatesAt metaMap filterDeprecated buckets operatorIds m i).mergeSort
      byFloatDesc) := by
  have hf := processTimeline_ok metaMap filterDeprecated buckets operatorIds frames hok
  subst hf
  have hi2 : i < (sortedDates buckets).length := by
    rw [buildFrames_length] at hi
    exact hi
  have hget := buildFrames_get metaMap filterDeprecated operatorIds buckets
    (sortedDates buckets) (fun _ => initialValues) i hi2 hi
  have heq : metricRanking
      ((buildFrames metaMap filterDeprecated operatorIds buckets
        (fun _ => initialValues) (sortedDates buckets)).get ⟨i, hi⟩) m =
      ((candidatesAt metaMap filterDeprecated buckets operatorIds m i).mergeSort
        byFloatDesc).take DISPLAY_COUNT := by
    rw [hget]
    cases m <;> rfl
  refine ⟨heq, ?_, ?_, ?_⟩
  · rw [heq]
    exact List.length_take_le _ _
  · rw [heq]
    have hp := List.sorted_mergeSort byFloatDesc_trans byFloatDesc_total
      (candidatesAt metaMap filterDeprecated buckets operatorIds m i)
    have hp2 : ((candidatesAt metaMap filterDeprecated buckets operatorIds m i).mergeSort
        byFloatDesc).Pairwise (fun x y => y.floatValue ≤ x.floatValue) :=
      hp.imp (fun h => by simpa [byFloatDesc] using h)
    exact hp2.sublist (List.take_sublist _ _)
  · exact List.pair_sublist_mergeSort byFloatDesc_trans byFloatDesc_total
      (by simp [byFloatDesc, htie]) hab

/-- A concrete metadata map resolving two operators, used by the C2
witness. -/
def metaMapW : String → Option OperatorMeta :=
  fun id =>
    if id = "a" then some { name := "Alpha", color := "bg-red-600" }
    else if id = "b" then some { name := "Beta", color := "bg-blue-600" }
    else none

/-- Two same-day observations with equal stake values: a tie. -/
def bucketsW : List Bucket :=
  [{ date := 100, operatorId := "a", valueWithoutEarnings := "5",
     cumulativeEarningsWei := "7" },
   { date := 100, operatorId := "b", valueWithoutEarnings := "5",
     cumulativeEarningsWei := "7" }]

/-- Stake entry of operator a in the C2 witness frame. -/
def entryWA : RankedEntry :=
  { id := "a", valueWei := "5", floatValue := 5, name := "Alpha", color := "bg-red-600" }

/-- Stake entry of operator b in the C2 witness frame. -/
def entryWB : RankedEntry :=
  { id := "b", valueWei := "5", floatValue := 5, name := "Beta", color := "bg-blue-600" }

/-- Earnings entry of operator a in the C2 witness frame. -/
def entryWA2 : RankedEntry :=
  { id := "a", valueWei := "7", floatValue := 7, name := "Alpha", color := "bg-red-600" }

/-- Earnings entry of operator b in the C2 witness frame. -/
def entryWB2 : RankedEntry :=
  { id := "b", valueWei := "7", floatValue := 7, name := "Beta", color := "bg-blue-600" }

/-- The single frame produced from `bucketsW`. -/
def frameW : Frame :=
  { date := 100, stake := [entryWA, entryWB], earnings := [entryWA2, entryWB2] }

theorem processTimelineW :
    processTimeline metaMapW false bucketsW ["a", "b"] = Except.ok [frameW] := by
  simp [processTimeline, sortedDates, dedupKeepFirst, buildFrames, mkFrame, rankEntries,
    validOperatorIds, entryFor, metaOf, tableAt, mergeDay, survivingBucket, initialValues,
    parseFloat, truthy, metaMapW, bucketsW, frameW, entryWA, entryWB, entryWA2, entryWB2,
    DISPLAY_COUNT, List.mergeSort_of_sorted, byFloatDesc]

theorem candidatesAtW :
    candidatesAt metaMapW false bucketsW ["a", "b"] Metric.stake 0 = [entryWA, entryWB] := by
  simp [candidatesAt, sortedDates, dedupKeepFirst, validOperatorIds, entryFor, metaOf,
    tableAt, mergeDay, survivingBucket, initialValues, parseFloat, truthy, metaMapW,
    bucketsW, entryWA, entryWB, metricProj]

theorem habW :
    [entryWA, entryWB].Sublist (candidatesAt metaMapW false bucketsW ["a", "b"]
      Metric.stake 0) := by
  rw [candidatesAtW]

/-- Witness for C2 on the concrete two-operator tied input. -/
theorem claim_C2_rankings_sorted_topK_witness :
    metricRanking ([frameW].get ⟨0, Nat.one_pos⟩) Metric.stake =
      ((candidatesAt metaMapW false bucketsW ["a", "b"] Metric.stake 0).mergeSort
        byFloatDesc).take DISPLAY_COUNT ∧
    (metricRanking ([frameW].get ⟨0, Nat.one_pos⟩) Metric.stake).length ≤ DISPLAY_COUNT ∧
    (metricRanking ([frameW].get ⟨0, Nat.one_pos⟩) Metric.stake).Pairwise
      (fun x y => y.floatValue ≤ x.floatValue) ∧
    [entryWA, entryWB].Sublist ((candidatesAt metaMapW false bucketsW ["a", "b"]
      Metric.stake 0).mergeSort byFloatDesc) :=
  claim_C2_rankings_sorted_topK metaMapW false bucketsW ["a", "b"] [frameW]
    processTimelineW Metric.stake 0 Nat.one_pos entryWA entryWB habW rfl

theorem mostRecentStep_foldl_mem (l : List Bucket) :
    ∀ (acc : Option Bucket) (a : Bucket), l.foldl mostRecentStep acc = some a →
      acc = some a ∨ a ∈ l := by
  induction l with
  | nil => intro acc a h; exact Or.inl h
  | cons c tl ih =>
    intro acc a h
    rcases ih (mostRecentStep acc c) a h with h1 | h1
    · cases acc with
      | none =>
        simp only [mostRecentStep] at h1
        exact Or.inr (by rw [← Option.some.inj h1]; exact List.mem_cons_self c tl)
      | some x =>
        simp only [mostRecentStep] at h1
        by_cases hd : x.date ≤ c.date
        · rw [if_pos hd] at h1
          exact Or.inr (by rw [← Option.some.inj h1]; exact List.mem_cons_self c tl)
        · rw [if_neg hd] at h1
          exact Or.inl h1
    · exact Or.inr (List.mem_cons_of_mem _ h1)

theorem mostRecentObservation_mem (buckets : List Bucket) (id : String) (d : Nat) (a : Bucket)
    (h : mostRecentObservation buckets id d = some a) :
    a ∈ observationsUpTo buckets id d := by
  unfold mostRecentObservation at h
  rcases mostRecentStep_foldl_mem _ none a h with h1 | h1
  · exact absurd h1 (by simp)
  · exact h1

theorem observationsUpTo_mem (buckets : List Bucket) (id : String) (d : Nat) (a : Bucket)
    (h : a ∈ observationsUpTo buckets id d) :
    a ∈ buckets ∧ a.operatorId = id ∧ a.date ≤ d := by
  unfold observationsUpTo at h
  obtain ⟨h1, h2⟩ := List.mem_filter.mp h
  simp only [Bool.and_eq_true, decide_eq_true_eq] at h2
  exact ⟨h1, h2.1, h2.2⟩

theorem survivingBucket_mem (buckets : List Bucket) (d : Nat) (id : String) (b : Bucket)
    (h : survivingBucket buckets d id = some b) :
    b ∈ buckets ∧ b.date = d ∧ b.operatorId = id := by
  unfold survivingBucket at h
  have hm := List.mem_of_getLast?_eq_some h
  obtain ⟨h1, h2⟩ := List.mem_filter.mp hm
  simp only [Bool.and_eq_true, decide_eq_true_eq] at h2
  exact ⟨h1, h2.1, h2.2⟩

theorem no_bucket_of_surviving_none (buckets : List Bucket) (d : Nat) (id : String)
    (hsv : survivingBucket buckets d id = none) :
    ∀ b ∈ buckets, ¬(b.date = d ∧ b.operatorId = id) := by
  intro b hb hc
  have hmem : b ∈ buckets.filter
      (fun bb => decide (bb.date = d) && decide (bb.operatorId = id)) := by
    rw [List.mem_filter]
    exact ⟨hb, by simp [hc.1, hc.2]⟩
  unfold survivingBucket at hsv
  rw [List.getLast?_eq_none_iff] at hsv
  rw [hsv] at hmem
  exact absurd hmem (List.not_mem_nil b)

theorem survivingBucket_append (l : List Bucket) (x : Bucket) (d : Nat) (id : String) :
    survivingBucket (l ++ [x]) d id =
      if x.date = d ∧ x.operatorId = id then some x else survivingBucket l d id := by
  unfold survivingBucket
  rw [List.filter_append]
  by_cases h : x.date = d ∧ x.operatorId = id
  · rw [if_pos h]
    have hf : List.filter (fun b => decide (b.date = d) && decide (b.operatorId = id)) [x]
        = [x] := by
      simp [h.1, h.2]
    rw [hf, List.getLast?_concat]
  · rw [if_neg h]
    have hf : List.filter (fun b => decide (b.date = d) && decide (b.operatorId = id)) [x]
        = [] := by
      simp only [List.filter, Bool.and_eq_true, decide_eq_true_eq]
      split
      · rename_i hcond
        simp only [Bool.and_eq_true, decide_eq_true_eq] at hcond
        exact absurd hcond h
      · rfl
    rw [hf, List.append_nil]

theorem observationsUpTo_append (l : List Bucket) (x : Bucket) (id : String) (d : Nat) :
    observationsUpTo (l ++ [x]) id d =
      observationsUpTo l id d ++
        (if x.operatorId = id ∧ x.date ≤ d then [x] else []) := by
  unfold observationsUpTo
  rw [List.filter_append]
  congr 1
  by_cases h : x.operatorId = id ∧ x.date ≤ d
  · rw [if_pos h]
    simp [h.1, h.2]
  · rw [if_neg h]
    simp only [List.filter, Bool.and_eq_true, decide_eq_true_eq]
    split
    · rename_i hcond
      simp only [Bool.and_eq_true, decide_eq_true_eq] at hcond
      exact absurd hcond h
    · rfl

theorem mostRecentObservation_append (l : List Bucket) (x : Bucket) (id : String) (d : Nat) :
    mostRecentObservation (l ++ [x]) id d =
      if x.operatorId = id ∧ x.date ≤ d
      then mostRecentStep (mostRecentObservation l id d) x
      else mostRecentObservation l id d := by
  unfold mostRecentObservation
  rw [observationsUpTo_append]
  by_cases h : x.operatorId = id ∧ x.date ≤ d
  · rw [if_pos h, if_pos h, List.foldl_append]
    rfl
  · rw [if_neg h, if_neg h, List.append_nil]

theorem mostRecent_of_surviving (d : Nat) (id : String) (buckets : List Bucket) :
    ∀ (b : Bucket), survivingBucket buckets d id = some b →
      mostRecentObservation buckets id d = some b := by
  induction buckets using List.reverseRecOn with
  | nil => intro b h; exact absurd h (by simp [survivingBucket])
  | append_singleton l x ih =>
    intro b h
    rw [survivingBucket_append] at h
    rw [mostRecentObservation_append]
    by_cases hx : x.date = d ∧ x.operatorId = id
    · rw [if_pos hx] at h
      have hxb : x = b := Option.some.inj h
      rw [if_pos ⟨hx.2, le_of_eq hx.1⟩]
      subst hxb
      cases hmr : mostRecentObservation l id d with
      | none => rfl
      | some a =>
        have ha := observationsUpTo_mem l id d a (mostRecentObservation_mem l id d a hmr)
        simp only [mostRecentStep]
        rw [if_pos (by rw [hx.1]; exact ha.2.2)]
    · rw [if_neg hx] at h
      have hb := survivingBucket_mem l d id b h
      have hrec := ih b h
      by_cases hobs : x.operatorId = id ∧ x.date ≤ d
      · obtain ⟨hobs1, hobs2⟩ := hobs
        rw [if_pos ⟨hobs1, hobs2⟩, hrec]
        simp only [mostRecentStep]
        have hxd : x.date ≠ d := by
          intro hcontra
          exact hx ⟨hcontra, hobs1⟩
        rw [if_neg (by rw [hb.2.1]; omega)]
      · rw [if_neg hobs]
        exact hrec

theorem le_getLast_of_sorted :
    ∀ (ds : List Nat), ds.Pairwise (· < ·) → ∀ (x : Nat), x ∈ ds →
      ∀ dL, ds.getLast? = some dL → x ≤ dL := by
  intro ds
  induction ds using List.reverseRecOn with
  | nil => intro _ x hx; exact absurd hx (List.not_mem_nil x)
  | append_singleton l a ih =>
    intro hp x hx dL hL
    rw [List.getLast?_concat] at hL
    have hda : dL = a := (Option.some.inj hL).symm
    subst hda
    rcases List.mem_append.mp hx with h | h
    · exact le_of_lt ((List.pairwise_append.mp hp).2.2 x h dL (List.mem_singleton_self dL))
    · rw [List.mem_singleton] at h
      exact le_of_eq h

theorem tableAt_getLast_spec (buckets : List Bucket)
    (hne : ∀ b ∈ buckets, b.valueWithoutEarnings ≠ "" ∧ b.cumulativeEarningsWei ≠ "") :
    ∀ (ds : List Nat), ds.Pairwise (· < ·) →
      ∀ dL, ds.getLast? = some dL →
      (∀ b ∈ buckets, b.date ≤ dL → b.date ∈ ds) →
      ∀ id, tableAt buckets ds id = forwardFillSpec buckets id dL := by
  intro ds
  induction ds using List.reverseRecOn with
  | nil => intro _ dL hL; exact absurd hL (by simp)
  | append_singleton l d ih =>
    intro hp dL hL hcover id
    rw [List.getLast?_concat] at hL
    have hdL : dL = d := (Option.some.inj hL).symm
    rw [hdL] at hcover ⊢
    have htb : tableAt buckets (l ++ [d]) id = mergeDay buckets d (tableAt buckets l) id := by
      unfold tableAt
      rw [List.foldl_append]
      rfl
    rw [htb]
    unfold mergeDay
    cases hsv : survivingBucket buckets d id with
    | some b =>
      have hbm := survivingBucket_mem buckets d id b hsv
      have hneb := hne b hbm.1
      unfold forwardFillSpec
      rw [mostRecent_of_surviving d id buckets b hsv]
      simp only [truthy]
      rw [if_pos (by simpa using hneb.1), if_pos (by simpa using hneb.2)]
    | none =>
      have hnob := no_bucket_of_surviving_none buckets d id hsv
      cases hl : l.getLast? with
      | none =>
        rw [List.getLast?_eq_none_iff] at hl
        subst hl
        unfold forwardFillSpec mostRecentObservation
        have hobs : observationsUpTo buckets id d = [] := by
          unfold observationsUpTo
          rw [List.filter_eq_nil_iff]
          intro b hbmem
          simp only [Bool.and_eq_true, decide_eq_true_eq, not_and]
          intro hbid hbd
          have hmem := hcover b hbmem hbd
          simp only [List.nil_append, List.mem_singleton] at hmem
          exact hnob b hbmem ⟨hmem, hbid⟩
        rw [hobs]
        rfl
      | some dL2 =>
        have hpl : l.Pairwise (· < ·) := (List.pairwise_append.mp hp).1
        have hmem2 : dL2 ∈ l := List.mem_of_getLast?_eq_some hl
        have hlast_lt : dL2 < d :=
          (List.pairwise_append.mp hp).2.2 dL2 hmem2 d (List.mem_singleton_self d)
        have hcover2 : ∀ b ∈ buckets, b.date ≤ dL2 → b.date ∈ l := by
          intro b hb hbd
          have hm := hcover b hb (le_trans hbd (le_of_lt hlast_lt))
          rcases List.mem_append.mp hm with h | h
          · exact h
          · rw [List.mem_singleton] at h
            omega
        have hIH := ih hpl dL2 hl hcover2 id
        rw [hIH]
        unfold forwardFillSpec mostRecentObservation
        have hobseq : observationsUpTo buckets id d = observationsUpTo buckets id dL2 := by
          unfold observationsUpTo
          apply List.filter_congr
          intro b hb
          by_cases hid2 : b.operatorId = id
          · by_cases hbd : b.date ≤ dL2
            · simp [hbd, le_trans hbd (le_of_lt hlast_lt)]
            · by_cases hbd2 : b.date ≤ d
              · exfalso
                have hmem3 := hcover b hb hbd2
                rcases List.mem_append.mp hmem3 with h | h
                · exact hbd (le_getLast_of_sorted l hpl b.date h dL2 hl)
                · rw [List.mem_singleton] at h
                  exact hnob b hb ⟨h, hid2⟩
              · simp [hbd, hbd2]
          · simp [hid2]
        rw [hobseq]

theorem getLast?_take_succ (ds : List Nat) (i : Nat) (hi : i < ds.length) :
    (ds.take (i + 1)).getLast? = some (ds.get ⟨i, hi⟩) := by
  have h1 : ds[i]? = some (ds.get ⟨i, hi⟩) := by
    rw [List.getElem?_eq_getElem hi]
    rfl
  rw [List.take_succ, h1]
  exact List.getLast?_concat _

theorem mem_take_of_le_sorted (ds : List Nat) (hp : ds.Pairwise (· < ·)) (i : Nat)
    (hi : i < ds.length) (x : Nat) (hx : x ∈ ds) (hle : x ≤ ds.get ⟨i, hi⟩) :
    x ∈ ds.take (i + 1) := by
  obtain ⟨⟨j, hj⟩, hget⟩ := List.mem_iff_get.mp hx
  by_cases hij : j ≤ i
  · have hjt : j < (ds.take (i + 1)).length := by
      rw [List.length_take]
      omega
    have heq : (ds.take (i + 1)).get ⟨j, hjt⟩ = ds.get ⟨j, hj⟩ := by
      simp only [List.get_eq_getElem, List.getElem_take]
    rw [← hget, ← heq]
    exact List.get_mem _ j hjt
  · exfalso
    have hij2 : i < j := by omega
    have hlt := List.pairwise_iff_get.mp hp ⟨i, hi⟩ ⟨j, hj⟩ (by simpa [Fin.mk_lt_mk] using hij2)
    rw [hget] at hlt
    omega

/-- C1: forward-fill correctness.  For every frame and every discovered
entity, the running value table at that frame holds exactly the metric values
of the most recent observation of that entity at or before the frame date,
and the seeded zero pair when no such observation exists; consequently every
stake ranking entry carries the most recent stake observation of its entity
and every earnings entry the most recent earnings observation.  The
hypotheses record the upstream guarantees of the history fetch: every bucket
belongs to a discovered operator and the subgraph metric strings are
non-empty decimal literals. -/
theorem claim_C1_forward_fill
    (metaMap : String → Option OperatorMeta) (filterDeprecated : Bool)
    (buckets : List Bucket) (operatorIds : List String) (frames : List Frame)
    (_hids : ∀ b ∈ buckets, b.operatorId ∈ operatorIds)
    (hne : ∀ b ∈ buckets, b.valueWithoutEarnings ≠ "" ∧ b.cumulativeEarningsWei ≠ "")
    (hok : processTimeline metaMap filterDeprecated buckets operatorIds = Except.ok frames)
    (i : Nat) (hi : i < frames.length) (id : String) (_hid : id ∈ operatorIds)
    (e : RankedEntry) (he : e ∈ (frames.get ⟨i, hi⟩).stake)
    (e2 : RankedEntry) (he2 : e2 ∈ (frames.get ⟨i, hi⟩).earnings) :
    tableAt buckets ((sortedDates buckets).take (i + 1)) id =
      forwardFillSpec buckets id ((frames.get ⟨i, hi⟩).date) ∧
    e.valueWei = (forwardFillSpec buckets e.id ((frames.get ⟨i, hi⟩).date)).stake ∧
    e2.valueWei = (forwardFillSpec buckets e2.id ((frames.get ⟨i, hi⟩).date)).earnings := by
  have hf := processTimeline_ok metaMap filterDeprecated buckets operatorIds frames hok
  subst hf
  have hi2 : i < (sortedDates buckets).length := by
    rw [buildFrames_length] at hi
    exact hi
  have hget := buildFrames_get metaMap filterDeprecated operatorIds buckets
    (sortedDates buckets) (fun _ => initialValues) i hi2 hi
  have hdate : ((buildFrames metaMap filterDeprecated operatorIds buckets
      (fun _ => initialValues) (sortedDates buckets)).get ⟨i, hi⟩).date =
      (sortedDates buckets).get ⟨i, hi2⟩ := by
    rw [hget]
    rfl
  have htbl : ∀ idX, tableAt buckets ((sortedDates buckets).take (i + 1)) idX =
      forwardFillSpec buckets idX ((sortedDates buckets).get ⟨i, hi2⟩) := by
    intro idX
    apply tableAt_getLast_spec buckets hne
    · exact List.Pairwise.sublist (List.take_sublist _ _) (sortedDates_pairwise_lt buckets)
    · exact getLast?_take_succ _ i hi2
    · intro b hb hbd
      exact mem_take_of_le_sorted _ (sortedDates_pairwise_lt buckets) i hi2 b.date
        ((mem_sortedDates buckets b.date).mpr ⟨b, hb, rfl⟩) hbd
  rw [hget] at he he2
  simp only [mkFrame, rankEntries] at he he2
  have he3 := List.mem_mergeSort.mp (List.mem_of_mem_take he)
  have he4 := List.mem_mergeSort.mp (List.mem_of_mem_take he2)
  obtain ⟨idX, hidX, rfl⟩ := List.mem_map.mp he3
  obtain ⟨idY, hidY, rfl⟩ := List.mem_map.mp he4
  rw [hdate]
  exact ⟨htbl id, congrArg StakeEarn.stake (htbl idX), congrArg StakeEarn.earnings (htbl idY)⟩

/-- Witness for C1 on the concrete single-observation input. -/
theorem claim_C1_forward_fill_witness :
    tableAt bucketsV ((sortedDates bucketsV).take (0 + 1)) "a" =
      forwardFillSpec bucketsV "a" (([frameV].get ⟨0, Nat.one_pos⟩).date) ∧
    entryVStake.valueWei =
      (forwardFillSpec bucketsV entryVStake.id (([frameV].get ⟨0, Nat.one_pos⟩).date)).stake ∧
    entryVEarn.valueWei =
      (forwardFillSpec bucketsV entryVEarn.id
        (([frameV].get ⟨0, Nat.one_pos⟩).date)).earnings :=
  claim_C1_forward_fill metaMapV false bucketsV ["a"] [frameV]
    (by decide) (by decide) processTimelineV 0 Nat.one_pos "a" (by decide)
    entryVStake (List.mem_singleton_self entryVStake)
    entryVEarn (List.mem_singleton_self entryVEarn)

/-! ## History aggregation pagination -/

/-- The loop state of the pagination `while` in `fetchData`: the accumulated
rows, the cursor (`lastDate`, passed to the query as a strictly-greater date
bound) and the loop flag. -/
structure FetchState where
  allBuckets : List Bucket
  lastDate : Nat
  fetching : Bool
deriving DecidableEq, Repr

/-- One iteration body of the pagination loop, with the remote response for a
cursor abstracted as a function `page`.  An empty page stops the loop; a
non-empty page is appended, the cursor advances to its last date, and a short
page (fewer than the fixed page size 1000) stops the loop. -/
def fetchPageStep (page : Nat → List Bucket) (s : FetchState) : FetchState :=
  let buckets := page s.lastDate
  if buckets.length = 0 then { s with fetching := false }
  else
    { allBuckets := s.allBuckets ++ buckets,
      lastDate :=
        match buckets.getLast? with
        | some b => b.date
        | none => s.lastDate,
      fetching := if buckets.length < 1000 then false else s.fetching }

/-- The pagination loop with explicit fuel; the termination theorem below
shows that fuel bounded by the date range suffices. -/
def fetchLoop (page : Nat → List Bucket) : Nat → FetchState → FetchState
  | 0, s => s
  | fuel + 1, s =>
    if s.fetching = false then s else fetchLoop page fuel (fetchPageStep page s)

theorem fetchLoop_of_stopped (page : Nat → List Bucket) :
    ∀ (fuel : Nat) (s : FetchState), s.fetching = false → fetchLoop page fuel s = s := by
  intro fuel s h
  cases fuel with
  | zero => rfl
  | succ n => simp [fetchLoop, h]

theorem fetchLoop_terminates (page : Nat → List Bucket) (D : Nat)
    (hgt : ∀ c, ∀ b ∈ page c, c < b.date ∧ b.date ≤ D) :
    ∀ (fuel : Nat) (s : FetchState), D + 1 - s.lastDate < fuel →
      (fetchLoop page fuel s).fetching = false := by
  intro fuel
  induction fuel with
  | zero => intro s h; omega
  | succ n ih =>
    intro s hfe
    by_cases hf : s.fetching = false
    · simp [fetchLoop, hf]
    · have hft : s.fetching = true := by revert hf; cases s.fetching <;> simp
      rw [show fetchLoop page (n + 1) s = fetchLoop page n (fetchPageStep page s) from by
        simp [fetchLoop, hft]]
      by_cases h0 : (page s.lastDate).length = 0
      · have hstep : (fetchPageStep page s).fetching = false := by
          simp [fetchPageStep, h0]
        rw [fetchLoop_of_stopped page n _ hstep]
        exact hstep
      · by_cases hlt : (page s.lastDate).length < 1000
        · have hstep : (fetchPageStep page s).fetching = false := by
            simp [fetchPageStep, h0, hlt]
          rw [fetchLoop_of_stopped page n _ hstep]
          exact hstep
        · apply ih
          have hnil : page s.lastDate ≠ [] := by
            intro hc
            rw [hc] at h0
            exact h0 rfl
          cases hgl : (page s.lastDate).getLast? with
          | none =>
            rw [List.getLast?_eq_none_iff] at hgl
            exact absurd hgl hnil
          | some b =>
            have hbm := List.mem_of_getLast?_eq_some hgl
            have hbd := hgt s.lastDate b hbm
            have hld : (fetchPageStep page s).lastDate = b.date := by
              simp [fetchPageStep, h0, hgl]
            rw [hld]
            omega

/-- C8: under the contract that every page holds only rows with dates
strictly greater than the supplied cursor, ordered ascending, at most the
fixed page size, and drawn from a dataset whose dates are bounded by `D`, the
pagination loop terminates from any start cursor with fuel covering the date
range; moreover one loop iteration from a fetching state stops exactly when
the page is shorter than the page size (zero rows included), appends the page
rows in order, and advances the cursor to the last date of the page. -/
theorem claim_C8_pagination_terminates
    (page : Nat → List Bucket) (D : Nat)
    (hgt : ∀ c, ∀ b ∈ page c, c < b.date ∧ b.date ≤ D)
    (_hsorted : ∀ c, (page c).Pairwise (fun a b => a.date ≤ b.date))
    (_hsize : ∀ c, (page c).length ≤ 1000)
    (start : Nat) (fuel : Nat) (hfuel : D + 1 - start < fuel)
    (s : FetchState) (hs : s.fetching = true)
    (lastB : Bucket) (hlast : (page s.lastDate).getLast? = some lastB) :
    (fetchLoop page fuel
        { allBuckets := [], lastDate := start, fetching := true }).fetching = false ∧
    ((fetchPageStep page s).fetching = false ↔ (page s.lastDate).length < 1000) ∧
    (fetchPageStep page s).allBuckets = s.allBuckets ++ page s.lastDate ∧
    (fetchPageStep page s).lastDate = lastB.date := by
  have hnil : page s.lastDate ≠ [] := by
    intro hc
    rw [hc] at hlast
    exact absurd hlast (by simp)
  have h0 : ¬((page s.lastDate).length = 0) := by
    intro hc
    exact hnil (List.length_eq_zero.mp hc)
  refine ⟨fetchLoop_terminates page D hgt fuel _ hfuel, ?_, ?_, ?_⟩
  · constructor
    · intro hstop
      by_contra hge
      have : (fetchPageStep page s).fetching = true := by
        simp [fetchPageStep, h0, hge, hs]
      rw [this] at hstop
      exact absurd hstop (by simp)
    · intro hlt
      simp [fetchPageStep, h0, hlt]
  · simp [fetchPageStep, h0]
  · simp [fetchPageStep, h0, hlast]

/-- A concrete one-row remote dataset for the C8 witness: the only page is
served at cursor 0 and is shorter than the page size. -/
def pageW8 : Nat → List Bucket :=
  fun c =>
    if c = 0 then
      [{ date := 5, operatorId := "a", valueWithoutEarnings := "1",
         cumulativeEarningsWei := "2" }]
    else []

theorem pageW8_hgt : ∀ c, ∀ b ∈ pageW8 c, c < b.date ∧ b.date ≤ 5 := by
  intro c b hb
  unfold pageW8 at hb
  split at hb
  · rename_i hc
    rw [List.mem_singleton] at hb
    subst hb
    subst hc
    exact ⟨by decide, by decide⟩
  · exact absurd hb (List.not_mem_nil b)

theorem pageW8_sorted : ∀ c, (pageW8 c).Pairwise (fun a b => a.date ≤ b.date) := by
  intro c
  unfold pageW8
  split
  · exact List.pairwise_singleton _ _
  · exact List.Pairwise.nil

theorem pageW8_size : ∀ c, (pageW8 c).length ≤ 1000 := by
  intro c
  unfold pageW8
  split <;> simp

/-- The initial loop state of the C8 witness. -/
def fetchInitW : FetchState := { allBuckets := [], lastDate := 0, fetching := true }

/-- The single row served by `pageW8`. -/
def bucketW8 : Bucket :=
  { date := 5, operatorId := "a", valueWithoutEarnings := "1",
    cumulativeEarningsWei := "2" }

/-- Witness for C8 on the concrete one-page dataset. -/
theorem claim_C8_pagination_terminates_witness :
    (fetchLoop pageW8 7 fetchInitW).fetching = false ∧
    ((fetchPageStep pageW8 fetchInitW).fetching = false ↔
      (pageW8 fetchInitW.lastDate).length < 1000) ∧
    (fetchPageStep pageW8 fetchInitW).allBuckets =
      fetchInitW.allBuckets ++ pageW8 fetchInitW.lastDate ∧
    (fetchPageStep pageW8 fetchInitW).lastDate = bucketW8.date :=
  claim_C8_pagination_terminates pageW8 5 pageW8_hgt pageW8_sorted pageW8_size
    0 7 (by decide) fetchInitW rfl bucketW8 rfl
